import Mathlib

/-!
Verification of `pyrseas/dbobject/privileges.py`.

Strings are modelled as `List Char`; Python's `str.split` with two-place
unpacking is modelled by `splitOnce` (which succeeds exactly when the
separator occurs exactly once); fallible code returns `Option`.
-/

/-- Strings of the source are modelled as lists of characters. -/
abbrev Str := List Char

/-- Model of Python `(a, b) = s.split(sep)`: succeeds exactly when `sep`
occurs exactly once in `s`, returning the parts before and after it. -/
def splitOnce (sep : Char) : Str → Option (Str × Str)
  | [] => none
  | c :: rest =>
    if c = sep then
      if sep ∈ rest then none else some ([], rest)
    else
      (splitOnce sep rest).map (fun p => (c :: p.1, p.2))

/-- The `PRIVCODES` table: privilege code character to privilege name. -/
def PRIVCODES : List (Char × Str) :=
  [('a', "insert".toList), ('r', "select".toList), ('w', "update".toList),
   ('d', "delete".toList), ('D', "truncate".toList), ('x', "references".toList),
   ('t', "trigger".toList), ('X', "execute".toList), ('U', "usage".toList),
   ('C', "create".toList)]

/-- Lookup in `PRIVCODES` (Python `PRIVCODES[code]`, total with default `[]`;
the source only indexes with keys of the table). -/
def privCodeName (code : Char) : Str :=
  match PRIVCODES.find? (fun p => p.1 = code) with
  | some p => p.2
  | none => []

/-- Lookup in the inverse table `PRIVILEGES` (name to code);
`none` models Python `key in PRIVILEGES` being false. -/
def privNameCode (name : Str) : Option Char :=
  (PRIVCODES.find? (fun p => p.2 = name)).map Prod.fst

/-- Python `sorted(PRIVCODES.keys())` (ASCII order). -/
def sortedPrivCodes : List Char :=
  ['C', 'D', 'U', 'X', 'a', 'd', 'r', 't', 'w', 'x']

/-- `_split_privs`: split an aclitem into grantee, privilege codes and
grantor; an empty grantee is normalized to `PUBLIC`. -/
def splitPrivs (privspec : Str) : Option (Str × Str × Str) :=
  match splitOnce '=' privspec with
  | none => none
  | some (usr0, prvgrant) =>
    let usr := if usr0 = [] then ("PUBLIC".toList) else usr0
    match splitOnce '/' prvgrant with
    | none => none
    | some (privcodes, grantor) => some (usr, privcodes, grantor)

/-- A structured privilege entry: a bare privilege name, or a one-key
mapping `{name: {grantable: b}}`. -/
inductive PrivEntry where
  | bare (name : Str)
  | attr (name : Str) (grantable : Bool)
deriving DecidableEq

/-- The value attached to one grantee in structured form: either a bare
privilege list or the `{privs: ..., grantor: ...}` wrapper. -/
inductive PrivValue where
  | plain (privs : List PrivEntry)
  | withGrantor (privs : List PrivEntry) (grantor : Str)
deriving DecidableEq

/-- A single-key mapping from a grantee to its structured privileges. -/
structure PrivMap where
  usr : Str
  value : PrivValue
deriving DecidableEq

/-- The privilege list held by a `PrivValue`. -/
def privsOfValue : PrivValue → List PrivEntry
  | PrivValue.plain ps => ps
  | PrivValue.withGrantor ps _ => ps

/-- Whether a `PrivValue` carries an explicit grantor annotation. -/
def isWrapped : PrivValue → Bool
  | PrivValue.plain _ => false
  | PrivValue.withGrantor _ _ => true

/-- `privileges_to_map`: map an aclitem to the structured (YAML) form. -/
def privileges_to_map (privspec : Str) (allprivs : Str) (owner : Str) :
    Option PrivMap :=
  match splitPrivs privspec with
  | none => none
  | some (usr, privcodes, grantor) =>
    let privs : List PrivEntry :=
      if privcodes = allprivs ∧ allprivs.length > 1 then
        [PrivEntry.bare ("all".toList)]
      else
        sortedPrivCodes.filterMap (fun code =>
          if code ∈ privcodes then
            some (if [code, '*'] <:+: privcodes then
                    PrivEntry.attr (privCodeName code) true
                  else
                    PrivEntry.bare (privCodeName code))
          else none)
    let value : PrivValue :=
      if owner ≠ [] ∧ grantor ≠ owner then PrivValue.withGrantor privs grantor
      else PrivValue.plain privs
    some ⟨usr, value⟩

/-- The key (privilege name) of a structured entry. -/
def privEntryKey : PrivEntry → Str
  | PrivEntry.bare n => n
  | PrivEntry.attr n _ => n

/-- The code characters contributed by one structured entry in
`privileges_from_map`: the code if the name is recognized, then a `*`
marker if the entry is a mapping carrying `grantable: true`. -/
def privEntryCodes (prv : PrivEntry) : Str :=
  (match privNameCode (privEntryKey prv) with
   | some c => [c]
   | none => []) ++
  (match prv with
   | PrivEntry.attr _ true => ['*']
   | _ => [])

/-- The accumulation loop over a privilege list in `privileges_from_map`. -/
def privsCodesAux (acc : Str) : List PrivEntry → Str
  | [] => acc
  | prv :: rest => privsCodesAux (acc ++ privEntryCodes prv) rest

/-- One iteration of `privileges_from_map`: rebuild the aclitem string of
one structured grantee entry. The source dispatches with the duck-typed
check `if 'grantor' in privs`: on the wrapper mapping this finds the
`grantor` key, so the explicit grantor and the inner `privs` list are
taken; on a plain list it is a membership test, so a plain list that
contains the bare name `grantor` takes the wrapper branch and then
`privs['grantor']` indexes a list with a string, a TypeError (modelled as
`none`); otherwise the grantor defaults to the owner. -/
def fromMapItem (allprivs : Str) (owner : Str) (priv : PrivMap) :
    Option Str :=
  match priv.value with
  | PrivValue.withGrantor ps g =>
    some ((if priv.usr = ("PUBLIC".toList) then [] else priv.usr) ++
      '=' :: (if ps = [PrivEntry.bare ("all".toList)] then allprivs
              else privsCodesAux [] ps) ++ '/' :: g)
  | PrivValue.plain ps =>
    if PrivEntry.bare ("grantor".toList) ∈ ps then none
    else
      some ((if priv.usr = ("PUBLIC".toList) then [] else priv.usr) ++
        '=' :: (if ps = [PrivEntry.bare ("all".toList)] then allprivs
                else privsCodesAux [] ps) ++ '/' :: owner)

/-- The `retlist` loop of `privileges_from_map`; an error raised on one
entry aborts the whole call with no partial result. -/
def fromMapAux (allprivs : Str) (owner : Str) :
    List PrivMap → Option (List Str)
  | [] => some []
  | priv :: rest =>
    match fromMapItem allprivs owner priv with
    | none => none
    | some s =>
      match fromMapAux allprivs owner rest with
      | none => none
      | some ss => some (s :: ss)

/-- `privileges_from_map`: map structured privileges back to aclitems. -/
def privileges_from_map (privlist : List PrivMap) (allprivs : Str)
    (owner : Str) : Option (List Str) :=
  fromMapAux allprivs owner privlist

/-- The object contract consumed by the statement generator: `objtype`,
the optional `privobjtype` (modelling `hasattr`), `identifier()` and
`allprivs`. -/
structure DbObject where
  objtype : Str
  privobjtype : Option Str
  identifier : Str
  allprivs : Str

/-- The grant target type: `privobjtype` when the object exposes one,
else `objtype`. -/
def grantTargetType (obj : DbObject) : Str :=
  match obj.privobjtype with
  | some t => t
  | none => obj.objtype

/-- The loop of `_expand_priv_lists` over the sorted code table,
accumulating the plain (`privs`) and grant-option (`wgo`) groups. -/
def expandAux (privcodes : Str) (pw : List Str × List Str) :
    List Char → List Str × List Str
  | [] => pw
  | code :: rest =>
    if code ∈ privcodes then
      let priv := (privCodeName code).map Char.toUpper
      if [code, '*'] <:+: privcodes then
        expandAux privcodes (pw.1, pw.2 ++ [priv]) rest
      else
        expandAux privcodes (pw.1 ++ [priv], pw.2) rest
    else expandAux privcodes pw rest

/-- `_expand_priv_lists`: convert a privilege code string to the expanded
uppercase lists `(privs, wgo)`. -/
def expand_priv_lists (obj : DbObject) (privcodes : Str) :
    List Str × List Str :=
  if privcodes = obj.allprivs ∧ obj.allprivs.length > 1 then
    (["ALL".toList], [])
  else expandAux privcodes ([], []) sortedPrivCodes

/-- Python `', '.join(l)` as list concatenation. -/
def joinComma : List Str → Str
  | [] => []
  | [x] => x
  | x :: y :: rest => x ++ (", ".toList) ++ joinComma (y :: rest)

/-- The text of one GRANT statement without grant option. -/
def mkGrantStmt (privs : List Str) (objtype : Str) (obj : DbObject)
    (usr : Str) : Str :=
  ("GRANT ".toList) ++ joinComma privs ++ (" ON ".toList) ++ objtype ++
    [' '] ++ obj.identifier ++ (" TO ".toList) ++ usr

/-- The text of one GRANT statement WITH GRANT OPTION. -/
def mkGrantWgoStmt (privs : List Str) (objtype : Str) (obj : DbObject)
    (usr : Str) : Str :=
  ("GRANT ".toList) ++ joinComma privs ++ (" ON ".toList) ++ objtype ++
    [' '] ++ obj.identifier ++ (" TO ".toList) ++ usr ++
    (" WITH GRANT OPTION".toList)

/-- The text of one REVOKE statement. -/
def mkRevokeStmt (privs : List Str) (objtype : Str) (obj : DbObject)
    (usr : Str) : Str :=
  ("REVOKE ".toList) ++ joinComma privs ++ (" ON ".toList) ++ objtype ++
    [' '] ++ obj.identifier ++ (" FROM ".toList) ++ usr

/-- `add_grant`: GRANT statements for one aclitem (plain group first,
then the grant-option group). -/
def add_grant (obj : DbObject) (privspec : Str) : Option (List Str) :=
  match splitPrivs privspec with
  | none => none
  | some (usr, privcodes, _) =>
    let pw := expand_priv_lists obj privcodes
    let objtype := grantTargetType obj
    let stmts : List Str := []
    let stmts := if pw.1 ≠ [] then
        stmts ++ [mkGrantStmt pw.1 objtype obj usr] else stmts
    let stmts := if pw.2 ≠ [] then
        stmts ++ [mkGrantWgoStmt pw.2 objtype obj usr] else stmts
    some stmts

/-- `add_revoke`: REVOKE statements for one aclitem (grant-option group
first, then the plain group). -/
def add_revoke (obj : DbObject) (privspec : Str) : Option (List Str) :=
  match splitPrivs privspec with
  | none => none
  | some (usr, privcodes, _) =>
    let pw := expand_priv_lists obj privcodes
    let objtype := grantTargetType obj
    let stmts : List Str := []
    let stmts := if pw.2 ≠ [] then
        stmts ++ [mkRevokeStmt pw.2 objtype obj usr] else stmts
    let stmts := if pw.1 ≠ [] then
        stmts ++ [mkRevokeStmt pw.1 objtype obj usr] else stmts
    some stmts

/-- Keys of the privilege dictionaries in `diff_privs`. -/
abbrev PrivKey := Str × Str

/-- The dictionaries in `diff_privs`, with Python `dict` semantics
(insertion order, overwrite keeps the original position). -/
abbrev PrivDict := List (PrivKey × Str)

/-- Python `key in d`. -/
def dmem (d : PrivDict) (k : PrivKey) : Bool :=
  d.any (fun p => p.1 = k)

/-- Python `d[key]` (as an `Option`). -/
def dget (d : PrivDict) (k : PrivKey) : Option Str :=
  (d.find? (fun p => p.1 = k)).map Prod.snd

/-- Python `d[key] = v`: overwrite in place, else append. -/
def dinsert (k : PrivKey) (v : Str) (d : PrivDict) : PrivDict :=
  if dmem d k then d.map (fun p => if p.1 = k then (k, v) else p)
  else d ++ [(k, v)]

/-- The dictionary-building loops of `diff_privs`. -/
def buildPrivDictAux (d : PrivDict) : List Str → Option PrivDict
  | [] => some d
  | spec :: rest =>
    match splitPrivs spec with
    | none => none
    | some (usr, privcodes, grantor) =>
      buildPrivDictAux (dinsert (usr, grantor) privcodes d) rest

/-- Build the `(grantee, grantor) -> codes` dictionary from an aclitem
list. -/
def buildPrivDict (l : List Str) : Option PrivDict :=
  buildPrivDictAux [] l

/-- `rejoin` inside `diff_privs`: reconstruct the aclitem of a key. -/
def rejoin (privdict : PrivDict) (usr : Str) (gtor : Str) : Str :=
  (if usr = ("PUBLIC".toList) then [] else usr) ++
    '=' :: ((dget privdict (usr, gtor)).getD []) ++ '/' :: gtor

/-- A statement-group: the list returned by one `add_grant`/`add_revoke`
call, appended as one element of the `diff_privs` result. -/
abbrev StmtGroup := List Str

/-- The first loop of `diff_privs`: revoke the keys present only in the
current dictionary. -/
def diffPhase1Aux (currobj : DbObject) (currprivs newprivs : PrivDict)
    (stmts : List StmtGroup) : List PrivKey → Option (List StmtGroup)
  | [] => some stmts
  | k :: ks =>
    if dmem newprivs k then diffPhase1Aux currobj currprivs newprivs stmts ks
    else
      match add_revoke currobj (rejoin currprivs k.1 k.2) with
      | none => none
      | some rv =>
        diffPhase1Aux currobj currprivs newprivs (stmts ++ [rv]) ks

/-- The second loop of `diff_privs`: grant new keys, and revoke-then-grant
keys whose code string changed. -/
def diffPhase2Aux (currobj newobj : DbObject) (currprivs newprivs : PrivDict)
    (stmts : List StmtGroup) : List PrivKey → Option (List StmtGroup)
  | [] => some stmts
  | k :: ks =>
    if dmem currprivs k then
      if dget currprivs k ≠ dget newprivs k then
        match add_revoke currobj (rejoin currprivs k.1 k.2),
              add_grant newobj (rejoin newprivs k.1 k.2) with
        | some rv, some gr =>
          diffPhase2Aux currobj newobj currprivs newprivs
            (stmts ++ [rv] ++ [gr]) ks
        | _, _ => none
      else diffPhase2Aux currobj newobj currprivs newprivs stmts ks
    else
      match add_grant newobj (rejoin newprivs k.1 k.2) with
      | none => none
      | some gr =>
        diffPhase2Aux currobj newobj currprivs newprivs (stmts ++ [gr]) ks

/-- `diff_privs`: the GRANT/REVOKE statement-groups adjusting the current
privileges to the new ones. -/
def diff_privs (currobj : DbObject) (currlist : List Str) (newobj : DbObject)
    (newlist : List Str) : Option (List StmtGroup) :=
  match buildPrivDict currlist, buildPrivDict newlist with
  | some currprivs, some newprivs =>
    match diffPhase1Aux currobj currprivs newprivs []
        (currprivs.map Prod.fst) with
    | none => none
    | some stmts =>
      diffPhase2Aux currobj newobj currprivs newprivs stmts
        (newprivs.map Prod.fst)
  | _, _ => none

/-- Well-formedness of a parsed triple: exactly the separator-freeness
that `splitPrivs` guarantees for its output. -/
def WFTriple (u c g : Str) : Prop :=
  '=' ∉ u ∧ '=' ∉ c ∧ '/' ∉ c ∧ '=' ∉ g ∧ '/' ∉ g ∧ u ≠ []

/-- The statement list `add_grant` builds from a parsed grantee and code
string. -/
def grantStmtsOf (obj : DbObject) (usr c : Str) : List Str :=
  (if (expand_priv_lists obj c).1 = [] then []
   else [mkGrantStmt (expand_priv_lists obj c).1 (grantTargetType obj) obj usr]) ++
  (if (expand_priv_lists obj c).2 = [] then []
   else [mkGrantWgoStmt (expand_priv_lists obj c).2 (grantTargetType obj) obj usr])

/-- The statement list `add_revoke` builds from a parsed grantee and code
string. -/
def revokeStmtsOf (obj : DbObject) (usr c : Str) : List Str :=
  (if (expand_priv_lists obj c).2 = [] then []
   else [mkRevokeStmt (expand_priv_lists obj c).2 (grantTargetType obj) obj usr]) ++
  (if (expand_priv_lists obj c).1 = [] then []
   else [mkRevokeStmt (expand_priv_lists obj c).1 (grantTargetType obj) obj usr])

/-- Well-formedness of one dictionary entry `((grantee, grantor), codes)`. -/
def WFEntry (e : PrivKey × Str) : Prop := WFTriple e.1.1 e.2 e.1.2

/-- Keys in order of first occurrence, skipping keys already seen. -/
def firstOccAux (seen : List PrivKey) : List PrivKey → List PrivKey
  | [] => []
  | k :: ks =>
    if k ∈ seen then firstOccAux seen ks
    else k :: firstOccAux (k :: seen) ks

/-- The `(grantee, grantor)` key of a parsed aclitem triple. -/
def parsedKey (t : Str × Str × Str) : PrivKey := (t.1, t.2.2)

/-- Monadic map over `Option`, written recursively. -/
def optMapM {α β : Type} (f : α → Option β) : List α → Option (List β)
  | [] => some []
  | a :: as =>
    match f a, optMapM f as with
    | some b, some bs => some (b :: bs)
    | _, _ => none

/-- What the second `diff_privs` loop does with one key. -/
def phase2Entry (currobj newobj : DbObject) (currprivs newprivs : PrivDict)
    (k : PrivKey) : Option (List StmtGroup) :=
  if dmem currprivs k then
    if dget currprivs k ≠ dget newprivs k then
      match add_revoke currobj (rejoin currprivs k.1 k.2),
            add_grant newobj (rejoin newprivs k.1 k.2) with
      | some rv, some gr => some [rv, gr]
      | _, _ => none
    else some []
  else (add_grant newobj (rejoin newprivs k.1 k.2)).map (fun gr => [gr])

/-- Encoding of a list of `(code, grantable)` pairs as a wire code-string:
each code, optionally followed by the grant-option marker. A well-formed
code-string is one of this shape over valid codes. -/
def encodeCodes : List (Char × Bool) → Str
  | [] => []
  | (c, m) :: rest => c :: ((if m then ['*'] else []) ++ encodeCodes rest)

/-- The privilege codes of a code-string with their grant-option markers,
read the way the source reads them (membership for the code, substring
`code*` for the marker), in canonical code order. -/
def codeSet (c : Str) : List (Char × Bool) :=
  sortedPrivCodes.filterMap (fun code =>
    if code ∈ c then some (code, decide ([code, '*'] <:+: c)) else none)

/-- Equivalence of two aclitem strings: both parse, with the same grantee,
the same grantor, and the same privilege codes and markers. -/
def aclEquiv (s1 s2 : Str) : Bool :=
  match splitPrivs s1, splitPrivs s2 with
  | some (u1, c1, g1), some (u2, c2, g2) =>
    decide (u1 = u2) && decide (g1 = g2) && decide (codeSet c1 = codeSet c2)
  | _, _ => false

/-- A concrete table-like object for witnesses. -/
def tableObj : DbObject :=
  ⟨"TABLE".toList, none, "t1".toList, "arwdDxt".toList⟩

theorem splitOnce_eq_some {sep : Char} {s a b : Str}
    (h : splitOnce sep s = some (a, b)) :
    s = a ++ sep :: b ∧ sep ∉ a ∧ sep ∉ b := by
  induction s generalizing a b with
  | nil => simp [splitOnce] at h
  | cons c rest ih =>
    rw [splitOnce] at h
    by_cases hc : c = sep
    · rw [if_pos hc] at h
      by_cases hm : sep ∈ rest
      · rw [if_pos hm] at h; exact absurd h (by simp)
      · rw [if_neg hm] at h
        obtain ⟨ha, hb⟩ := Prod.mk.injEq .. ▸ Option.some.inj h
        subst ha; subst hb; subst hc
        exact ⟨rfl, by simp, hm⟩
    · rw [if_neg hc] at h
      cases ho : splitOnce sep rest with
      | none => rw [ho] at h; simp at h
      | some p =>
        rw [ho, Option.map_some'] at h
        obtain ⟨ha, hb⟩ := Prod.mk.injEq .. ▸ Option.some.inj h
        obtain ⟨h1, h2, h3⟩ := ih (a := p.1) (b := p.2) (by rw [ho])
        subst ha; subst hb
        refine ⟨by rw [List.cons_append, ← h1], ?_, h3⟩
        intro hmem
        rcases List.mem_cons.mp hmem with h' | h'
        · exact hc h'.symm
        · exact h2 h'

theorem splitOnce_mk {sep : Char} {a b : Str} (ha : sep ∉ a) (hb : sep ∉ b) :
    splitOnce sep (a ++ sep :: b) = some (a, b) := by
  induction a with
  | nil => simp [splitOnce, hb]
  | cons c a ih =>
    have hc : ¬(c = sep) := fun h => ha (by simp [h])
    have ha' : sep ∉ a := fun h => ha (List.mem_cons_of_mem _ h)
    simp [splitOnce, hc, ih ha']

theorem splitOnce_of_not_mem {sep : Char} {s : Str} (h : sep ∉ s) :
    splitOnce sep s = none := by
  induction s with
  | nil => rfl
  | cons c rest ih =>
    have hc : ¬(c = sep) := fun h' => h (by simp [h'])
    have h' : sep ∉ rest := fun h' => h (List.mem_cons_of_mem _ h')
    simp [splitOnce, hc, ih h']

theorem splitPrivs_wf {s u c g : Str} (h : splitPrivs s = some (u, c, g)) :
    WFTriple u c g := by
  unfold splitPrivs at h
  cases he : splitOnce '=' s with
  | none => rw [he] at h; simp at h
  | some p =>
    rw [he] at h
    obtain ⟨hs, hu0, hpg⟩ := splitOnce_eq_some (a := p.1) (b := p.2)
      (by rw [he])
    cases hf : splitOnce '/' p.2 with
    | none => simp only [hf] at h; simp at h
    | some q =>
      simp only [hf] at h
      obtain ⟨hq, hc, hg⟩ := splitOnce_eq_some (a := q.1) (b := q.2)
        (by rw [hf])
      obtain ⟨hu, hrest⟩ := Prod.mk.injEq .. ▸ Option.some.inj h
      obtain ⟨hc', hg'⟩ := Prod.mk.injEq .. ▸ hrest
      subst hu; subst hc'; subst hg'
      have hec : '=' ∉ q.1 := fun hm => hpg (hq ▸ List.mem_append_left _ hm)
      have heg : '=' ∉ q.2 := fun hm =>
        hpg (hq ▸ List.mem_append_right _ (List.mem_cons_of_mem _ hm))
      refine ⟨?_, hec, hc, heg, hg, ?_⟩
      · by_cases h0 : p.1 = []
        · rw [if_pos h0]; decide
        · rw [if_neg h0]; exact hu0
      · by_cases h0 : p.1 = []
        · rw [if_pos h0]; decide
        · rw [if_neg h0]; exact h0

theorem splitPrivs_mk {usr c g : Str} (hu : '=' ∉ usr) (hc1 : '=' ∉ c)
    (hc2 : '/' ∉ c) (hg1 : '=' ∉ g) (hg2 : '/' ∉ g) :
    splitPrivs (usr ++ '=' :: c ++ '/' :: g) =
      some (if usr = [] then ("PUBLIC".toList) else usr, c, g) := by
  have hb : '=' ∉ c ++ '/' :: g := by
    intro hm
    rcases List.mem_append.mp hm with h' | h'
    · exact hc1 h'
    · rcases List.mem_cons.mp h' with h'' | h''
      · exact absurd h'' (by decide)
      · exact hg1 h''
  have h1 : splitOnce '=' (usr ++ '=' :: (c ++ '/' :: g)) =
      some (usr, c ++ '/' :: g) := splitOnce_mk hu hb
  have h2 : splitOnce '/' (c ++ '/' :: g) = some (c, g) := splitOnce_mk hc2 hg2
  have hassoc : usr ++ '=' :: c ++ '/' :: g = usr ++ '=' :: (c ++ '/' :: g) := by
    simp
  unfold splitPrivs
  rw [hassoc, h1]
  dsimp only
  rw [h2]

theorem splitPrivs_rejoin_of_wf {u c g : Str} (h : WFTriple u c g) :
    splitPrivs ((if u = ("PUBLIC".toList) then [] else u) ++
      '=' :: c ++ '/' :: g) = some (u, c, g) := by
  obtain ⟨h1, h2, h3, h4, h5, h6⟩ := h
  by_cases hp : u = "PUBLIC".toList
  · rw [if_pos hp, splitPrivs_mk (by simp) h2 h3 h4 h5]
    simp [hp]
  · rw [if_neg hp, splitPrivs_mk h1 h2 h3 h4 h5, if_neg h6]

theorem splitPrivs_none {s : Str} (h : '=' ∉ s ∨ '/' ∉ s) :
    splitPrivs s = none := by
  rcases h with h | h
  · unfold splitPrivs
    rw [splitOnce_of_not_mem h]
  · unfold splitPrivs
    cases he : splitOnce '=' s with
    | none => rfl
    | some p =>
      obtain ⟨hs, _, _⟩ := splitOnce_eq_some (a := p.1) (b := p.2)
        (by rw [he])
      have hp : '/' ∉ p.2 := fun hm =>
        h (hs ▸ List.mem_append_right _ (List.mem_cons_of_mem _ hm))
      obtain ⟨p1, p2⟩ := p
      dsimp only
      rw [splitOnce_of_not_mem (by exact hp)]

theorem add_grant_eq {obj : DbObject} {s u c g : Str}
    (h : splitPrivs s = some (u, c, g)) :
    add_grant obj s = some (grantStmtsOf obj u c) := by
  unfold add_grant grantStmtsOf
  rw [h]
  dsimp only
  by_cases h1 : (expand_priv_lists obj c).1 = [] <;>
    by_cases h2 : (expand_priv_lists obj c).2 = [] <;>
      simp [h1, h2]

theorem add_revoke_eq {obj : DbObject} {s u c g : Str}
    (h : splitPrivs s = some (u, c, g)) :
    add_revoke obj s = some (revokeStmtsOf obj u c) := by
  unfold add_revoke revokeStmtsOf
  rw [h]
  dsimp only
  by_cases h1 : (expand_priv_lists obj c).1 = [] <;>
    by_cases h2 : (expand_priv_lists obj c).2 = [] <;>
      simp [h1, h2]

theorem add_grant_none {obj : DbObject} {s : Str} (h : splitPrivs s = none) :
    add_grant obj s = none := by
  unfold add_grant
  rw [h]

theorem add_revoke_none {obj : DbObject} {s : Str} (h : splitPrivs s = none) :
    add_revoke obj s = none := by
  unfold add_revoke
  rw [h]

theorem expandAux_nil (pw : List Str × List Str) (codes : List Char) :
    expandAux [] pw codes = pw := by
  induction codes with
  | nil => rfl
  | cons code rest ih => simp [expandAux, ih]

theorem expand_priv_lists_nil (obj : DbObject) :
    expand_priv_lists obj [] = ([], []) := by
  unfold expand_priv_lists
  by_cases h : ([] : Str) = obj.allprivs ∧ obj.allprivs.length > 1
  · obtain ⟨h1, h2⟩ := h
    rw [← h1] at h2
    simp at h2
  · rw [if_neg h, expandAux_nil]

theorem dmem_iff {d : PrivDict} {k : PrivKey} :
    dmem d k = true ↔ ∃ e ∈ d, e.1 = k := by
  unfold dmem
  rw [List.any_eq_true]
  constructor
  · rintro ⟨e, he, hk⟩
    exact ⟨e, he, by exact of_decide_eq_true hk⟩
  · rintro ⟨e, he, hk⟩
    exact ⟨e, he, by exact decide_eq_true hk⟩

theorem dget_isSome_of_mem {d : PrivDict} {e : PrivKey × Str} (he : e ∈ d) :
    (dget d e.1).isSome := by
  unfold dget
  rw [Option.isSome_map']
  rcases hf : d.find? (fun p => p.1 = e.1) with _ | p
  · rw [List.find?_eq_none] at hf
    exact absurd (by exact decide_eq_true rfl) (hf e he)
  · rw [hf]; rfl

theorem dmem_of_dget_isSome {d : PrivDict} {k : PrivKey}
    (h : (dget d k).isSome) : dmem d k = true := by
  unfold dget at h
  rw [Option.isSome_map'] at h
  rcases hf : d.find? (fun p => p.1 = k) with _ | p
  · rw [hf] at h; simp at h
  · have hm := List.mem_of_find?_eq_some hf
    have hk := List.find?_some hf
    exact dmem_iff.mpr ⟨p, hm, by exact of_decide_eq_true hk⟩

theorem dget_isSome_of_dmem {d : PrivDict} {k : PrivKey}
    (h : dmem d k = true) : (dget d k).isSome := by
  obtain ⟨e, he, hk⟩ := dmem_iff.mp h
  exact hk ▸ dget_isSome_of_mem he

theorem dinsert_mem_cases {d : PrivDict} {k : PrivKey} {v : Str}
    {e : PrivKey × Str} (he : e ∈ dinsert k v d) : e = (k, v) ∨ e ∈ d := by
  unfold dinsert at he
  by_cases hm : dmem d k
  · rw [if_pos hm] at he
    obtain ⟨e0, he0, hfe⟩ := List.mem_map.mp he
    by_cases h0 : e0.1 = k
    · rw [if_pos h0] at hfe
      exact Or.inl hfe.symm
    · rw [if_neg h0] at hfe
      exact Or.inr (hfe ▸ he0)
  · rw [if_neg hm] at he
    rcases List.mem_append.mp he with h' | h'
    · exact Or.inr h'
    · exact Or.inl (List.mem_singleton.mp h')

theorem dinsert_keys (d : PrivDict) (k : PrivKey) (v : Str) :
    (dinsert k v d).map Prod.fst =
      if dmem d k then d.map Prod.fst else d.map Prod.fst ++ [k] := by
  unfold dinsert
  by_cases hm : dmem d k
  · rw [if_pos hm, if_pos hm, List.map_map]
    refine List.map_congr_left (fun e _ => ?_)
    by_cases h0 : e.1 = k
    · simp [h0]
    · simp [h0]
  · rw [if_neg hm, if_neg hm]
    simp

theorem mem_keys_iff {d : PrivDict} {k : PrivKey} :
    k ∈ d.map Prod.fst ↔ ∃ e ∈ d, e.1 = k := List.mem_map

theorem dmem_iff_mem_keys {d : PrivDict} {k : PrivKey} :
    dmem d k = true ↔ k ∈ d.map Prod.fst := by
  rw [dmem_iff, mem_keys_iff]

theorem buildPrivDictAux_wf {d : PrivDict} {l : List Str} {d' : PrivDict}
    (h : buildPrivDictAux d l = some d') (hd : ∀ e ∈ d, WFEntry e) :
    ∀ e ∈ d', WFEntry e := by
  induction l generalizing d with
  | nil => exact (Option.some.inj h) ▸ hd
  | cons spec rest ih =>
    rw [buildPrivDictAux] at h
    cases hs : splitPrivs spec with
    | none => rw [hs] at h; simp at h
    | some t =>
      obtain ⟨u, c, g⟩ := t
      rw [hs] at h
      refine ih h (fun e he => ?_)
      rcases dinsert_mem_cases he with h' | h'
      · subst h'
        have := splitPrivs_wf hs
        exact this
      · exact hd e h'

theorem buildPrivDictAux_nodup {d : PrivDict} {l : List Str} {d' : PrivDict}
    (h : buildPrivDictAux d l = some d') (hd : (d.map Prod.fst).Nodup) :
    (d'.map Prod.fst).Nodup := by
  induction l generalizing d with
  | nil => exact (Option.some.inj h) ▸ hd
  | cons spec rest ih =>
    rw [buildPrivDictAux] at h
    cases hs : splitPrivs spec with
    | none => rw [hs] at h; simp at h
    | some t =>
      obtain ⟨u, c, g⟩ := t
      rw [hs] at h
      refine ih h ?_
      rw [dinsert_keys]
      by_cases hm : dmem d (u, g)
      · rw [if_pos hm]; exact hd
      · rw [if_neg hm]
        have hnm : (u, g) ∉ d.map Prod.fst := fun hx =>
          hm (dmem_iff_mem_keys.mpr hx)
        rw [List.nodup_append]
        exact ⟨hd, List.nodup_singleton _,
          fun a ha hb => hnm ((List.mem_singleton.mp hb) ▸ ha)⟩

theorem dget_eq_of_mem {d : PrivDict} {k : PrivKey} {v : Str}
    (hnd : (d.map Prod.fst).Nodup) (hm : (k, v) ∈ d) : dget d k = some v := by
  induction d with
  | nil => simp at hm
  | cons e rest ih =>
    rw [List.map_cons, List.nodup_cons] at hnd
    obtain ⟨hni, hnd'⟩ := hnd
    by_cases he : e.1 = k
    · unfold dget
      rw [List.find?_cons_of_pos _ (by exact decide_eq_true he),
        Option.map_some']
      rcases List.mem_cons.mp hm with h' | h'
      · rw [← h']
      · exact absurd (he.symm ▸ mem_keys_iff.mpr ⟨(k, v), h', rfl⟩) hni
    · unfold dget
      rw [List.find?_cons_of_neg _ (by simp [he])]
      rcases List.mem_cons.mp hm with h' | h'
      · exact absurd (congrArg Prod.fst h'.symm) he
      · exact ih hnd' h'

theorem firstOccAux_congr {s1 s2 : List PrivKey} {ks : List PrivKey}
    (h : ∀ x, x ∈ s1 ↔ x ∈ s2) : firstOccAux s1 ks = firstOccAux s2 ks := by
  induction ks generalizing s1 s2 with
  | nil => rfl
  | cons k ks ih =>
    rw [firstOccAux, firstOccAux]
    by_cases hk : k ∈ s1
    · rw [if_pos hk, if_pos ((h k).mp hk)]
      exact ih h
    · rw [if_neg hk, if_neg (fun hx => hk ((h k).mpr hx))]
      exact congrArg _ (ih (fun x => by
        rw [List.mem_cons, List.mem_cons, h x]))

theorem buildPrivDictAux_keys {d : PrivDict} {l : List Str} {d' : PrivDict}
    {ts : List (Str × Str × Str)} (h : buildPrivDictAux d l = some d')
    (ht : optMapM splitPrivs l = some ts) :
    d'.map Prod.fst =
      d.map Prod.fst ++ firstOccAux (d.map Prod.fst) (ts.map parsedKey) := by
  induction l generalizing d ts with
  | nil =>
    obtain rfl := Option.some.inj h
    obtain rfl := Option.some.inj ht
    simp [firstOccAux]
  | cons spec rest ih =>
    rw [buildPrivDictAux] at h
    rw [optMapM] at ht
    cases hs : splitPrivs spec with
    | none => rw [hs] at ht; simp at ht
    | some t =>
      obtain ⟨u, c, g⟩ := t
      rw [hs] at h ht
      cases hrest : optMapM splitPrivs rest with
      | none => rw [hrest] at ht; simp at ht
      | some ts' =>
        rw [hrest] at ht
        obtain rfl := Option.some.inj ht
        have ihr := ih h hrest
        rw [List.map_cons]
        show d'.map Prod.fst =
          d.map Prod.fst ++ firstOccAux (d.map Prod.fst)
            ((u, g) :: ts'.map parsedKey)
        rw [firstOccAux]
        by_cases hm : dmem d (u, g)
        · rw [if_pos (dmem_iff_mem_keys.mp hm), ihr, dinsert_keys, if_pos hm]
        · rw [if_neg (fun hx => hm (dmem_iff_mem_keys.mpr hx))]
          rw [ihr, dinsert_keys, if_neg hm, List.append_assoc]
          refine congrArg _ ?_
          rw [List.singleton_append]
          exact congrArg _ (firstOccAux_congr (fun x => by
            rw [List.mem_append, List.mem_singleton, List.mem_cons, Or.comm]))

theorem buildPrivDictAux_none {d : PrivDict} {pre post : List Str} {s : Str}
    (hs : splitPrivs s = none) :
    buildPrivDictAux d (pre ++ s :: post) = none := by
  induction pre generalizing d with
  | nil => rw [List.nil_append, buildPrivDictAux, hs]
  | cons spec rest ih =>
    rw [List.cons_append, buildPrivDictAux]
    cases h0 : splitPrivs spec with
    | none => rfl
    | some t => obtain ⟨u, c, g⟩ := t; exact ih

theorem diffPhase1Aux_eq (co : DbObject) (cp np : PrivDict)
    (acc : List StmtGroup) (ks : List PrivKey) :
    diffPhase1Aux co cp np acc ks =
      (optMapM (fun k => add_revoke co (rejoin cp k.1 k.2))
        (ks.filter (fun k => !dmem np k))).map (fun gs => acc ++ gs) := by
  induction ks generalizing acc with
  | nil => simp [diffPhase1Aux, optMapM]
  | cons k ks ih =>
    rw [diffPhase1Aux, List.filter_cons]
    by_cases hm : dmem np k
    · rw [if_pos hm, if_neg (by simp [hm])]
      exact ih acc
    · rw [if_neg hm, if_pos (by simp [Bool.not_eq_true _ ▸ hm])]
      cases ha : add_revoke co (rejoin cp k.1 k.2) with
      | none => rw [optMapM, ha]; rfl
      | some rv =>
        dsimp only
        rw [ih (acc ++ [rv]), optMapM, ha]
        cases ho : optMapM (fun k => add_revoke co (rejoin cp k.1 k.2))
            (ks.filter (fun k => !dmem np k)) with
        | none => rfl
        | some gs => simp

theorem diffPhase2Aux_eq (co no : DbObject) (cp np : PrivDict)
    (acc : List StmtGroup) (ks : List PrivKey) :
    diffPhase2Aux co no cp np acc ks =
      (optMapM (phase2Entry co no cp np) ks).map
        (fun ls => acc ++ ls.flatten) := by
  induction ks generalizing acc with
  | nil => simp [diffPhase2Aux, optMapM]
  | cons k ks ih =>
    rw [diffPhase2Aux, optMapM, phase2Entry]
    by_cases hm : dmem cp k
    · rw [if_pos hm, if_pos hm]
      by_cases hd : dget cp k ≠ dget np k
      · rw [if_pos hd, if_pos hd]
        cases ha : add_revoke co (rejoin cp k.1 k.2) with
        | none => rfl
        | some rv =>
          cases hg : add_grant no (rejoin np k.1 k.2) with
          | none => rfl
          | some gr =>
            dsimp only
            rw [ih]
            cases ho : optMapM (phase2Entry co no cp np) ks with
            | none => rfl
            | some ls => simp
      · rw [if_neg hd, if_neg hd, ih]
        cases ho : optMapM (phase2Entry co no cp np) ks with
        | none => rfl
        | some ls => simp
    · rw [if_neg hm, if_neg hm]
      cases hg : add_grant no (rejoin np k.1 k.2) with
      | none => rfl
      | some gr =>
        dsimp only
        rw [ih]
        cases ho : optMapM (phase2Entry co no cp np) ks with
        | none => rfl
        | some ls => simp

theorem diff_privs_phases {co no : DbObject} {cl nl : List Str}
    {cp np : PrivDict} (hcp : buildPrivDict cl = some cp)
    (hnp : buildPrivDict nl = some np) :
    diff_privs co cl no nl =
      match optMapM (fun k => add_revoke co (rejoin cp k.1 k.2))
              ((cp.map Prod.fst).filter (fun k => !dmem np k)),
            optMapM (phase2Entry co no cp np) (np.map Prod.fst) with
      | some s1, some ls2 => some (s1 ++ ls2.flatten)
      | _, _ => none := by
  unfold diff_privs
  rw [hcp, hnp]
  dsimp only
  rw [diffPhase1Aux_eq]
  cases ho1 : optMapM (fun k => add_revoke co (rejoin cp k.1 k.2))
      ((cp.map Prod.fst).filter (fun k => !dmem np k)) with
  | none => rfl
  | some s1 =>
    rw [Option.map_some']
    show diffPhase2Aux co no cp np ([] ++ s1) (np.map Prod.fst) = _
    rw [List.nil_append, diffPhase2Aux_eq]
    cases ho2 : optMapM (phase2Entry co no cp np) (np.map Prod.fst) with
    | none => rfl
    | some ls2 => rfl

theorem star_not_code : '*' ∉ sortedPrivCodes := by decide

theorem privNameCode_privCodeName :
    ∀ code ∈ sortedPrivCodes, privNameCode (privCodeName code) = some code := by
  decide

theorem privCodeName_ne_all :
    ∀ code ∈ sortedPrivCodes, privCodeName code ≠ ("all".toList) := by
  decide

theorem mem_encodeCodes {l : List (Char × Bool)} {x : Char} (hx : x ≠ '*') :
    x ∈ encodeCodes l ↔ ∃ m, (x, m) ∈ l := by
  induction l with
  | nil => simp [encodeCodes]
  | cons p rest ih =>
    obtain ⟨c, m⟩ := p
    rw [encodeCodes]
    constructor
    · intro h
      rcases List.mem_cons.mp h with h' | h'
      · exact ⟨m, by rw [h']; exact List.mem_cons_self _ _⟩
      · rcases List.mem_append.mp h' with h'' | h''
        · cases m with
          | true => exact absurd (List.mem_singleton.mp h'') hx
          | false => simp at h''
        · obtain ⟨m', hm'⟩ := ih.mp h''
          exact ⟨m', List.mem_cons_of_mem _ hm'⟩
    · rintro ⟨m', hm'⟩
      rcases List.mem_cons.mp hm' with h' | h'
      · obtain ⟨h1, _⟩ := Prod.mk.injEq .. ▸ h'
        rw [h1]
        exact List.mem_cons_self _ _
      · exact List.mem_cons_of_mem _
          (List.mem_append_right _ (ih.mpr ⟨m', h'⟩))

theorem mem_encode_valid {l : List (Char × Bool)}
    (hv : ∀ p ∈ l, p.1 ∈ sortedPrivCodes) {x : Char}
    (hx : x ∈ encodeCodes l) : x ∈ sortedPrivCodes ∨ x = '*' := by
  induction l with
  | nil => simp [encodeCodes] at hx
  | cons p rest ih =>
    obtain ⟨c, m⟩ := p
    rw [encodeCodes] at hx
    rcases List.mem_cons.mp hx with h' | h'
    · exact Or.inl (h' ▸ hv (c, m) (List.mem_cons_self _ _))
    · rcases List.mem_append.mp h' with h'' | h''
      · cases m with
        | true => exact Or.inr (List.mem_singleton.mp h'')
        | false => simp at h''
      · exact ih (fun p hp => hv p (List.mem_cons_of_mem _ hp)) h''

theorem star_encode_of_parts {l : List (Char × Bool)} {x : Char}
    (hv : ∀ p ∈ l, p.1 ∈ sortedPrivCodes) (hx : x ≠ '*')
    {s t : Str} (hst : s ++ [x, '*'] ++ t = encodeCodes l) : (x, true) ∈ l := by
  induction l generalizing s t with
  | nil => simp [encodeCodes] at hst
  | cons p rest ih =>
    obtain ⟨c, m⟩ := p
    rw [encodeCodes] at hst
    have hv' : ∀ p ∈ rest, p.1 ∈ sortedPrivCodes :=
      fun p hp => hv p (List.mem_cons_of_mem _ hp)
    cases s with
    | nil =>
      rw [List.nil_append] at hst
      obtain ⟨hxc, hrest⟩ := List.cons.injEq .. ▸ hst
      cases m with
      | true => rw [hxc]; exact List.mem_cons_self _ _
      | false =>
        rw [if_neg (by simp), List.nil_append] at hrest
        cases rest with
        | nil => simp [encodeCodes] at hrest
        | cons q rest' =>
          obtain ⟨c', m'⟩ := q
          rw [encodeCodes] at hrest
          obtain ⟨hsc, _⟩ := List.cons.injEq .. ▸ hrest
          exact absurd (hsc ▸ hv' (c', m') (List.mem_cons_self _ _))
            star_not_code
    | cons a s' =>
      rw [List.cons_append, List.cons_append] at hst
      obtain ⟨hac, hrest⟩ := List.cons.injEq .. ▸ hst
      cases m with
      | false =>
        rw [if_neg (by simp), List.nil_append] at hrest
        exact List.mem_cons_of_mem _ (ih hv' hrest)
      | true =>
        rw [if_pos rfl, List.singleton_append] at hrest
        cases s' with
        | nil =>
          rw [List.nil_append] at hrest
          obtain ⟨hxs, _⟩ := List.cons.injEq .. ▸ hrest
          exact absurd hxs hx
        | cons b s'' =>
          rw [List.cons_append] at hrest
          obtain ⟨_, hrest'⟩ := List.cons.injEq .. ▸ hrest
          exact List.mem_cons_of_mem _ (ih hv' hrest')

theorem star_encodeCodes {l : List (Char × Bool)}
    (hv : ∀ p ∈ l, p.1 ∈ sortedPrivCodes) {x : Char} (hx : x ≠ '*') :
    [x, '*'] <:+: encodeCodes l ↔ (x, true) ∈ l := by
  constructor
  · rintro ⟨s, t, hst⟩
    exact star_encode_of_parts hv hx hst
  · intro hm
    induction l with
    | nil => simp at hm
    | cons p rest ih =>
      obtain ⟨c, m⟩ := p
      rcases List.mem_cons.mp hm with h' | h'
      · obtain ⟨h1, h2⟩ := Prod.mk.injEq .. ▸ h'.symm
        refine ⟨[], encodeCodes rest, ?_⟩
        rw [encodeCodes, ← h1, ← h2, if_pos rfl]
        rfl
      · obtain ⟨s, t, hst⟩ := ih
          (fun p hp => hv p (List.mem_cons_of_mem _ hp)) h'
        exact ⟨c :: ((if m then ['*'] else []) ++ s), t, by
          rw [encodeCodes, ← hst]; simp⟩

theorem filterMapCongr {α β : Type} {f g : α → Option β} {L : List α}
    (h : ∀ a ∈ L, f a = g a) : L.filterMap f = L.filterMap g := by
  induction L with
  | nil => rfl
  | cons a L ih =>
    rw [List.filterMap_cons, List.filterMap_cons,
      h a (List.mem_cons_self _ _),
      ih (fun a ha => h a (List.mem_cons_of_mem _ ha))]

theorem mem_codeSet {c : Str} {k : Char} {m : Bool} :
    (k, m) ∈ codeSet c ↔
      k ∈ sortedPrivCodes ∧ k ∈ c ∧ m = decide ([k, '*'] <:+: c) := by
  unfold codeSet
  rw [List.mem_filterMap]
  constructor
  · rintro ⟨a, ha, hfa⟩
    by_cases hm : a ∈ c
    · rw [if_pos hm] at hfa
      obtain ⟨h1, h2⟩ := Prod.mk.injEq .. ▸ Option.some.inj hfa
      exact ⟨h1 ▸ ha, h1 ▸ hm, h2.symm ▸ (by rw [h1])⟩
    · rw [if_neg hm] at hfa
      exact absurd hfa (by simp)
  · rintro ⟨h1, h2, h3⟩
    exact ⟨k, h1, by rw [if_pos h2, h3]⟩

theorem codeSet_valid {c : Str} : ∀ p ∈ codeSet c, p.1 ∈ sortedPrivCodes := by
  intro p hp
  obtain ⟨k, m⟩ := p
  exact (mem_codeSet.mp hp).1

theorem not_mem_encode {l : List (Char × Bool)}
    (hv : ∀ p ∈ l, p.1 ∈ sortedPrivCodes) {x : Char}
    (h1 : x ∉ sortedPrivCodes) (h2 : x ≠ '*') : x ∉ encodeCodes l :=
  fun hx => (mem_encode_valid hv hx).elim h1 h2

theorem codeSet_encode_codeSet (c : Str) :
    codeSet (encodeCodes (codeSet c)) = codeSet c := by
  show sortedPrivCodes.filterMap (fun code =>
      if code ∈ encodeCodes (codeSet c) then
        some (code, decide ([code, '*'] <:+: encodeCodes (codeSet c)))
      else none) =
    sortedPrivCodes.filterMap (fun code =>
      if code ∈ c then some (code, decide ([code, '*'] <:+: c)) else none)
  refine filterMapCongr (fun code hcode => ?_)
  have hxstar : code ≠ '*' := fun h => star_not_code (h ▸ hcode)
  have hmem : code ∈ encodeCodes (codeSet c) ↔ code ∈ c := by
    rw [mem_encodeCodes hxstar]
    constructor
    · rintro ⟨m, hm⟩
      exact (mem_codeSet.mp hm).2.1
    · intro h
      exact ⟨decide ([code, '*'] <:+: c),
        mem_codeSet.mpr ⟨hcode, h, rfl⟩⟩
  by_cases hc : code ∈ c
  · rw [if_pos (hmem.mpr hc), if_pos hc]
    refine congrArg _ (congrArg _ ?_)
    rw [decide_eq_decide]
    rw [star_encodeCodes codeSet_valid hxstar, mem_codeSet]
    constructor
    · rintro ⟨_, _, h3⟩
      exact of_decide_eq_true h3.symm
    · intro h
      exact ⟨hcode, hc, (decide_eq_true h).symm⟩
  · rw [if_neg (fun h => hc (hmem.mp h)), if_neg hc]

theorem privsCodesAux_acc (acc : Str) (l : List PrivEntry) :
    privsCodesAux acc l = acc ++ privsCodesAux [] l := by
  induction l generalizing acc with
  | nil => simp [privsCodesAux]
  | cons e rest ih =>
    rw [privsCodesAux, privsCodesAux, ih (acc ++ privEntryCodes e),
      ih ([] ++ privEntryCodes e)]
    simp

theorem privsCodes_filterMap (c : Str) (L : List Char)
    (hL : ∀ code ∈ L, code ∈ sortedPrivCodes) :
    privsCodesAux [] (L.filterMap (fun code =>
      if code ∈ c then
        some (if [code, '*'] <:+: c then
                PrivEntry.attr (privCodeName code) true
              else PrivEntry.bare (privCodeName code))
      else none)) =
    encodeCodes (L.filterMap (fun code =>
      if code ∈ c then some (code, decide ([code, '*'] <:+: c))
      else none)) := by
  induction L with
  | nil => rfl
  | cons code L ih =>
    have hcode := hL code (List.mem_cons_self _ _)
    have ih' := ih (fun x hx => hL x (List.mem_cons_of_mem _ hx))
    rw [List.filterMap_cons, List.filterMap_cons]
    by_cases hm : code ∈ c
    · rw [if_pos hm, if_pos hm]
      by_cases hi : [code, '*'] <:+: c
      · rw [if_pos hi, decide_eq_true hi]
        show privsCodesAux
          ([] ++ privEntryCodes (PrivEntry.attr (privCodeName code) true)) _ = _
        rw [privsCodesAux_acc, encodeCodes]
        rw [show privEntryCodes (PrivEntry.attr (privCodeName code) true) =
          [code, '*'] from by
            unfold privEntryCodes privEntryKey
            rw [privNameCode_privCodeName code hcode]
            rfl]
        rw [ih']
        simp
      · rw [if_neg hi, decide_eq_false hi]
        show privsCodesAux
          ([] ++ privEntryCodes (PrivEntry.bare (privCodeName code))) _ = _
        rw [privsCodesAux_acc, encodeCodes]
        rw [show privEntryCodes (PrivEntry.bare (privCodeName code)) =
          [code] from by
            unfold privEntryCodes privEntryKey
            rw [privNameCode_privCodeName code hcode]
            rfl]
        rw [ih']
        simp
    · rw [if_neg hm, if_neg hm]
      exact ih'

theorem toMapPrivs_ne_all (c : Str) :
    sortedPrivCodes.filterMap (fun code =>
      if code ∈ c then
        some (if [code, '*'] <:+: c then
                PrivEntry.attr (privCodeName code) true
              else PrivEntry.bare (privCodeName code))
      else none) ≠ [PrivEntry.bare ("all".toList)] := by
  intro h
  have hmem : PrivEntry.bare ("all".toList) ∈
      sortedPrivCodes.filterMap (fun code =>
        if code ∈ c then
          some (if [code, '*'] <:+: c then
                  PrivEntry.attr (privCodeName code) true
                else PrivEntry.bare (privCodeName code))
        else none) := by
    rw [h]; exact List.mem_cons_self _ _
  obtain ⟨code, hcode, hfc⟩ := List.mem_filterMap.mp hmem
  by_cases hm : code ∈ c
  · rw [if_pos hm] at hfc
    have hfc' := Option.some.inj hfc
    by_cases hi : [code, '*'] <:+: c
    · rw [if_pos hi] at hfc'
      exact PrivEntry.noConfusion hfc'
    · rw [if_neg hi] at hfc'
      exact privCodeName_ne_all code hcode (PrivEntry.bare.injEq .. ▸ hfc')
  · rw [if_neg hm] at hfc
    exact Option.noConfusion hfc

theorem privsCodesAux_split (l1 l2 : List PrivEntry) :
    privsCodesAux [] (l1 ++ l2) = privsCodesAux [] l1 ++ privsCodesAux [] l2 := by
  induction l1 with
  | nil => simp [privsCodesAux]
  | cons e rest ih =>
    rw [List.cons_append, privsCodesAux, privsCodesAux,
      privsCodesAux_acc _ (rest ++ l2), privsCodesAux_acc _ rest, ih]
    simp

/-- Claim C4: for an aclitem whose code-string holds both grant-optioned
and plain codes, `add_revoke` emits the grant-option group first and the
plain group second, while `add_grant` emits the plain group first and the
grant-option group (WITH GRANT OPTION) second. -/
theorem add_revoke_wgo_before_plain (obj : DbObject) (privspec u c g : Str)
    (privs wgo : List Str) (h : splitPrivs privspec = some (u, c, g))
    (he : expand_priv_lists obj c = (privs, wgo))
    (hp : privs ≠ []) (hw : wgo ≠ []) :
    add_revoke obj privspec =
      some [mkRevokeStmt wgo (grantTargetType obj) obj u,
            mkRevokeStmt privs (grantTargetType obj) obj u] ∧
    add_grant obj privspec =
      some [mkGrantStmt privs (grantTargetType obj) obj u,
            mkGrantWgoStmt wgo (grantTargetType obj) obj u] := by
  constructor
  · rw [add_revoke_eq h]
    unfold revokeStmtsOf
    rw [he]
    dsimp only
    rw [if_neg hw, if_neg hp]
    rfl
  · rw [add_grant_eq h]
    unfold grantStmtsOf
    rw [he]
    dsimp only
    rw [if_neg hp, if_neg hw]
    rfl

/-- Witness for C4 on the spec's `a*d` example. -/
theorem add_revoke_wgo_before_plain_witness :
    add_revoke tableObj ("alice=a*d/bob".toList) =
      some [mkRevokeStmt [("INSERT".toList)] (grantTargetType tableObj)
              tableObj ("alice".toList),
            mkRevokeStmt [("DELETE".toList)] (grantTargetType tableObj)
              tableObj ("alice".toList)] ∧
    add_grant tableObj ("alice=a*d/bob".toList) =
      some [mkGrantStmt [("DELETE".toList)] (grantTargetType tableObj)
              tableObj ("alice".toList),
            mkGrantWgoStmt [("INSERT".toList)] (grantTargetType tableObj)
              tableObj ("alice".toList)] :=
  add_revoke_wgo_before_plain tableObj ("alice=a*d/bob".toList)
    ("alice".toList) ("a*d".toList) ("bob".toList)
    [("DELETE".toList)] [("INSERT".toList)]
    (by decide) (by decide) (by decide) (by decide)

/-- Claim C9: `add_grant` and `add_revoke` emit a statement for a group
exactly when that group is non-empty, and an empty code-string yields an
empty statement list from both. -/
theorem add_no_empty_group (obj : DbObject) (privspec u c g : Str)
    (h : splitPrivs privspec = some (u, c, g)) :
    add_grant obj privspec = some
      ((if (expand_priv_lists obj c).1 = [] then []
        else [mkGrantStmt (expand_priv_lists obj c).1
                (grantTargetType obj) obj u]) ++
       (if (expand_priv_lists obj c).2 = [] then []
        else [mkGrantWgoStmt (expand_priv_lists obj c).2
                (grantTargetType obj) obj u])) ∧
    add_revoke obj privspec = some
      ((if (expand_priv_lists obj c).2 = [] then []
        else [mkRevokeStmt (expand_priv_lists obj c).2
                (grantTargetType obj) obj u]) ++
       (if (expand_priv_lists obj c).1 = [] then []
        else [mkRevokeStmt (expand_priv_lists obj c).1
                (grantTargetType obj) obj u])) ∧
    (c = [] → add_grant obj privspec = some [] ∧
      add_revoke obj privspec = some []) := by
  refine ⟨add_grant_eq h, add_revoke_eq h, fun hc => ?_⟩
  subst hc
  rw [add_grant_eq h, add_revoke_eq h]
  unfold grantStmtsOf revokeStmtsOf
  rw [expand_priv_lists_nil]
  simp

/-- Witness for C9 at an empty code-string. -/
theorem add_no_empty_group_witness :
    add_grant tableObj ("alice=/bob".toList) = some [] ∧
    add_revoke tableObj ("alice=/bob".toList) = some [] :=
  (add_no_empty_group tableObj ("alice=/bob".toList) ("alice".toList) []
    ("bob".toList) (by decide)).2.2 rfl

/-- Claim C6: an aclitem string missing the `=` or the `/` separator makes
parsing fail, and the failure propagates unhandled to every caller:
`privileges_to_map`, `add_grant`, `add_revoke` and `diff_privs` (for the
failing item in either list) all fail, and no partial result is
returned. -/
theorem malformed_acl_propagates (s allprivs owner : Str)
    (obj co no : DbObject) (pre post other : List Str)
    (hs : '=' ∉ s ∨ '/' ∉ s) :
    splitPrivs s = none ∧
    privileges_to_map s allprivs owner = none ∧
    add_grant obj s = none ∧ add_revoke obj s = none ∧
    diff_privs co (pre ++ s :: post) no other = none ∧
    diff_privs co other no (pre ++ s :: post) = none := by
  have hn := splitPrivs_none hs
  have hb : buildPrivDict (pre ++ s :: post) = none := buildPrivDictAux_none hn
  refine ⟨hn, ?_, add_grant_none hn, add_revoke_none hn, ?_, ?_⟩
  · unfold privileges_to_map
    rw [hn]
  · unfold diff_privs
    rw [hb]
  · unfold diff_privs
    rw [hb]
    cases buildPrivDict other <;> rfl

/-- Witness for C6 on a string with no separator at all. -/
theorem malformed_acl_propagates_witness :
    splitPrivs ("alicebob".toList) = none ∧
    privileges_to_map ("alicebob".toList) ("arwdDxt".toList)
      ("bob".toList) = none ∧
    add_grant tableObj ("alicebob".toList) = none ∧
    add_revoke tableObj ("alicebob".toList) = none ∧
    diff_privs tableObj (["carol=w/bob".toList] ++ "alicebob".toList :: [])
      tableObj ["carol=w/bob".toList] = none ∧
    diff_privs tableObj ["carol=w/bob".toList] tableObj
      (["carol=w/bob".toList] ++ "alicebob".toList :: []) = none :=
  malformed_acl_propagates ("alicebob".toList) ("arwdDxt".toList)
    ("bob".toList) tableObj tableObj tableObj ["carol=w/bob".toList] []
    ["carol=w/bob".toList] (Or.inl (by decide))

theorem privCodeName_ne_grantor :
    ∀ code ∈ sortedPrivCodes, privCodeName code ≠ ("grantor".toList) := by
  decide

theorem fromMapItem_wrap (allprivs owner usr g : Str)
    (ps : List PrivEntry) :
    fromMapItem allprivs owner ⟨usr, PrivValue.withGrantor ps g⟩ =
      some ((if usr = ("PUBLIC".toList) then [] else usr) ++
        '=' :: (if ps = [PrivEntry.bare ("all".toList)] then allprivs
                else privsCodesAux [] ps) ++ '/' :: g) := rfl

theorem fromMapItem_plain (allprivs owner usr : Str) (ps : List PrivEntry)
    (hg : PrivEntry.bare ("grantor".toList) ∉ ps) :
    fromMapItem allprivs owner ⟨usr, PrivValue.plain ps⟩ =
      some ((if usr = ("PUBLIC".toList) then [] else usr) ++
        '=' :: (if ps = [PrivEntry.bare ("all".toList)] then allprivs
                else privsCodesAux [] ps) ++ '/' :: owner) := by
  unfold fromMapItem
  dsimp only
  rw [if_neg hg]

theorem fromMapItem_plain_grantor (allprivs owner usr : Str)
    (ps : List PrivEntry)
    (hg : PrivEntry.bare ("grantor".toList) ∈ ps) :
    fromMapItem allprivs owner ⟨usr, PrivValue.plain ps⟩ = none := by
  unfold fromMapItem
  dsimp only
  rw [if_pos hg]

theorem from_map_singleton {allprivs owner : Str} {m : PrivMap} {s : Str}
    (h : fromMapItem allprivs owner m = some s) :
    privileges_from_map [m] allprivs owner = some [s] := by
  unfold privileges_from_map fromMapAux
  rw [h]
  rfl

theorem toMapPrivs_not_grantor (c : Str) :
    PrivEntry.bare ("grantor".toList) ∉
      sortedPrivCodes.filterMap (fun code =>
        if code ∈ c then
          some (if [code, '*'] <:+: c then
                  PrivEntry.attr (privCodeName code) true
                else PrivEntry.bare (privCodeName code))
        else none) := by
  intro hmem
  obtain ⟨code, hcode, hfc⟩ := List.mem_filterMap.mp hmem
  by_cases hm : code ∈ c
  · rw [if_pos hm] at hfc
    have hfc' := Option.some.inj hfc
    by_cases hi : [code, '*'] <:+: c
    · rw [if_pos hi] at hfc'
      exact PrivEntry.noConfusion hfc'
    · rw [if_neg hi] at hfc'
      exact privCodeName_ne_grantor code hcode (PrivEntry.bare.injEq .. ▸ hfc')
  · rw [if_neg hm] at hfc
    exact Option.noConfusion hfc

/-- Claim C8 counterexample: with an empty (falsy) owner the produced
value is left unwrapped even though the grantor `bob` differs from the
owner, refuting "wrapped if and only if grantor differs from owner". -/
theorem to_map_wrap_empty_owner_cex :
    privileges_to_map ("alice=r/bob".toList) ("arwdDxt".toList) [] =
      some ⟨"alice".toList,
        PrivValue.plain [PrivEntry.bare ("select".toList)]⟩ ∧
    ("bob".toList : Str) ≠ [] := by
  constructor
  · decide
  · decide

/-- Claim C8 (amended): `privileges_to_map` wraps with an explicit grantor
annotation if and only if the owner is non-empty (truthy) and the grantor
differs from the owner. -/
theorem to_map_wrap_iff (privspec allprivs owner u c g : Str)
    (h : splitPrivs privspec = some (u, c, g)) :
    ∃ m, privileges_to_map privspec allprivs owner = some m ∧
      m.usr = u ∧
      (isWrapped m.value = true ↔ owner ≠ [] ∧ g ≠ owner) := by
  unfold privileges_to_map
  rw [h]
  dsimp only
  by_cases hw : owner ≠ [] ∧ g ≠ owner
  · rw [if_pos hw]
    exact ⟨_, rfl, rfl, by simp [isWrapped, hw]⟩
  · rw [if_neg hw]
    exact ⟨_, rfl, rfl, by simp [isWrapped, hw]⟩

/-- Witness for the amended C8. -/
theorem to_map_wrap_iff_witness :
    ∃ m, privileges_to_map ("alice=r/bob".toList) ("arwdDxt".toList)
        ("carol".toList) = some m ∧
      m.usr = ("alice".toList) ∧
      (isWrapped m.value = true ↔
        ("carol".toList : Str) ≠ [] ∧ ("bob".toList : Str) ≠ ("carol".toList)) :=
  to_map_wrap_iff ("alice=r/bob".toList) ("arwdDxt".toList) ("carol".toList)
    ("alice".toList) ("r".toList) ("bob".toList) (by decide)

/-- Claim C7 counterexample: an entry with an unrecognized name is not
always simply skipped. Three concrete failures of the claim as stated:
an unrecognized name carried as `{name: {grantable: true}}` drops the
code but still appends a stray `*`; a plain list containing the bare
name `grantor` takes the wrapper branch and fails (Python TypeError)
instead of skipping; and removing the unrecognized bare name `foo` from
`[all, foo]` turns the list into the `[all]` shortcut, changing the
result. -/
theorem from_map_unrecognized_grantable_cex :
    privileges_from_map
        [⟨"alice".toList,
          PrivValue.plain [PrivEntry.attr ("foo".toList) true]⟩]
        ("arwdDxt".toList) ("bob".toList) = some ["alice=*/bob".toList] ∧
    privileges_from_map [⟨"alice".toList, PrivValue.plain []⟩]
        ("arwdDxt".toList) ("bob".toList) = some ["alice=/bob".toList] ∧
    ("alice=*/bob".toList : Str) ≠ ("alice=/bob".toList) ∧
    privileges_from_map
        [⟨"alice".toList,
          PrivValue.plain [PrivEntry.bare ("grantor".toList)]⟩]
        ("arwdDxt".toList) ("bob".toList) = none ∧
    privileges_from_map
        [⟨"alice".toList,
          PrivValue.plain [PrivEntry.bare ("all".toList),
            PrivEntry.bare ("foo".toList)]⟩]
        ("arwdDxt".toList) ("bob".toList) = some ["alice=/bob".toList] ∧
    privileges_from_map
        [⟨"alice".toList, PrivValue.plain [PrivEntry.bare ("all".toList)]⟩]
        ("arwdDxt".toList) ("bob".toList) =
      some ["alice=arwdDxt/bob".toList] := by
  refine ⟨by decide, by decide, by decide, by decide, by decide, by decide⟩

/-- Claim C7 (amended): a bare unrecognized privilege name other than the
literal `grantor` is skipped (the result equals the result for the list
with the entry removed), provided neither list is the literal `[all]`
shortcut; a plain list containing the bare name `grantor` instead takes
the wrapper branch and fails with a TypeError; and an unrecognized
`{name: {grantable: true}}` entry contributes a lone stray `*` marker. -/
theorem from_map_unrecognized_skip (allprivs owner usr nm : Str)
    (pre post : List PrivEntry)
    (hname : privNameCode nm = none)
    (hng : nm ≠ ("grantor".toList))
    (h1 : pre ++ PrivEntry.bare nm :: post ≠ [PrivEntry.bare ("all".toList)])
    (h2 : pre ++ post ≠ [PrivEntry.bare ("all".toList)]) :
    fromMapItem allprivs owner
        ⟨usr, PrivValue.plain (pre ++ PrivEntry.bare nm :: post)⟩ =
      fromMapItem allprivs owner ⟨usr, PrivValue.plain (pre ++ post)⟩ ∧
    (∀ ps, PrivEntry.bare ("grantor".toList) ∈ ps →
      fromMapItem allprivs owner ⟨usr, PrivValue.plain ps⟩ = none) ∧
    (∀ b, privEntryCodes (PrivEntry.attr nm b) =
      (if b then ['*'] else [])) := by
  have hgr : PrivEntry.bare ("grantor".toList) ∈
      pre ++ PrivEntry.bare nm :: post ↔
      PrivEntry.bare ("grantor".toList) ∈ pre ++ post := by
    rw [List.mem_append, List.mem_cons, List.mem_append]
    constructor
    · rintro (h | h | h)
      · exact Or.inl h
      · exact absurd (PrivEntry.bare.injEq .. ▸ h).symm hng
      · exact Or.inr h
    · rintro (h | h)
      · exact Or.inl h
      · exact Or.inr (Or.inr h)
  refine ⟨?_, ?_, ?_⟩
  · by_cases hmem : PrivEntry.bare ("grantor".toList) ∈ pre ++ post
    · rw [fromMapItem_plain_grantor _ _ _ _ (hgr.mpr hmem),
        fromMapItem_plain_grantor _ _ _ _ hmem]
    · have hskip : privEntryCodes (PrivEntry.bare nm) = [] := by
        unfold privEntryCodes privEntryKey
        rw [hname]
        rfl
      have hcodes : privsCodesAux [] (pre ++ PrivEntry.bare nm :: post) =
          privsCodesAux [] (pre ++ post) := by
        rw [privsCodesAux_split, privsCodesAux_split, privsCodesAux,
          privsCodesAux_acc, hskip]
        simp
      rw [fromMapItem_plain _ _ _ _ (fun h => hmem (hgr.mp h)),
        fromMapItem_plain _ _ _ _ hmem, if_neg h1, if_neg h2, hcodes]
  · intro ps hps
    exact fromMapItem_plain_grantor _ _ _ _ hps
  · intro b
    unfold privEntryCodes privEntryKey
    rw [hname]
    cases b <;> rfl

/-- Witness for the amended C7. -/
theorem from_map_unrecognized_skip_witness :
    fromMapItem ("arwdDxt".toList) ("bob".toList)
        ⟨"alice".toList, PrivValue.plain
          ([PrivEntry.bare ("select".toList)] ++
            PrivEntry.bare ("foo".toList) ::
              [PrivEntry.attr ("insert".toList) true])⟩ =
      fromMapItem ("arwdDxt".toList) ("bob".toList)
        ⟨"alice".toList, PrivValue.plain
          ([PrivEntry.bare ("select".toList)] ++
            [PrivEntry.attr ("insert".toList) true])⟩ ∧
    (∀ ps, PrivEntry.bare ("grantor".toList) ∈ ps →
      fromMapItem ("arwdDxt".toList) ("bob".toList)
        ⟨"alice".toList, PrivValue.plain ps⟩ = none) ∧
    (∀ b, privEntryCodes (PrivEntry.attr ("foo".toList) b) =
      (if b then ['*'] else [])) :=
  from_map_unrecognized_skip ("arwdDxt".toList) ("bob".toList)
    ("alice".toList) ("foo".toList) [PrivEntry.bare ("select".toList)]
    [PrivEntry.attr ("insert".toList) true]
    (by decide) (by decide) (by decide) (by decide)

/-- Claim C3: when the code-string equals `allprivs` and `allprivs` has
more than one code, `privileges_to_map` produces the `all` shortcut, and
`privileges_from_map` turns that entry back into exactly `allprivs` as
the code-string. -/
theorem all_shortcut_roundtrip (privspec allprivs owner u g : Str)
    (h : splitPrivs privspec = some (u, allprivs, g))
    (hlen : allprivs.length > 1) :
    ∃ v, privileges_to_map privspec allprivs owner = some ⟨u, v⟩ ∧
      privsOfValue v = [PrivEntry.bare ("all".toList)] ∧
      privileges_from_map [⟨u, v⟩] allprivs owner =
        some [(if u = ("PUBLIC".toList) then [] else u) ++
          '=' :: allprivs ++ '/' ::
            (if owner ≠ [] ∧ g ≠ owner then g else owner)] := by
  by_cases hw : owner ≠ [] ∧ g ≠ owner
  · refine ⟨PrivValue.withGrantor [PrivEntry.bare ("all".toList)] g,
      ?_, rfl, ?_⟩
    · unfold privileges_to_map
      rw [h]
      dsimp only
      rw [if_pos hw, if_pos ⟨rfl, hlen⟩]
    · rw [if_pos hw]
      refine from_map_singleton ?_
      rw [fromMapItem_wrap, if_pos rfl]
  · refine ⟨PrivValue.plain [PrivEntry.bare ("all".toList)], ?_, rfl, ?_⟩
    · unfold privileges_to_map
      rw [h]
      dsimp only
      rw [if_neg hw, if_pos ⟨rfl, hlen⟩]
    · rw [if_neg hw]
      refine from_map_singleton ?_
      rw [fromMapItem_plain _ _ _ _ (by decide), if_pos rfl]

/-- Witness for C3. -/
theorem all_shortcut_roundtrip_witness :
    ∃ v, privileges_to_map ("alice=arwdDxt/bob".toList) ("arwdDxt".toList)
        ("bob".toList) = some ⟨"alice".toList, v⟩ ∧
      privsOfValue v = [PrivEntry.bare ("all".toList)] ∧
      privileges_from_map [⟨"alice".toList, v⟩] ("arwdDxt".toList)
          ("bob".toList) =
        some [(if ("alice".toList : Str) = ("PUBLIC".toList) then []
          else ("alice".toList)) ++
          '=' :: ("arwdDxt".toList) ++ '/' ::
            (if ("bob".toList : Str) ≠ [] ∧
                ("bob".toList : Str) ≠ ("bob".toList)
              then ("bob".toList) else ("bob".toList))] :=
  all_shortcut_roundtrip ("alice=arwdDxt/bob".toList) ("arwdDxt".toList)
    ("bob".toList) ("alice".toList) ("bob".toList) (by decide) (by decide)

theorem optMapM_cons_some {α β : Type} {f : α → Option β} {a : α}
    {l : List α} {r : List β} (h : optMapM f (a :: l) = some r) :
    ∃ b bs, f a = some b ∧ optMapM f l = some bs ∧ r = b :: bs := by
  rw [optMapM] at h
  cases hfa : f a with
  | none =>
    rw [hfa] at h
    cases hrec : optMapM f l with
    | none => rw [hrec] at h; exact absurd h (by simp)
    | some bs => rw [hrec] at h; exact absurd h (by simp)
  | some b =>
    rw [hfa] at h
    cases hrec : optMapM f l with
    | none => rw [hrec] at h; exact absurd h (by simp)
    | some bs =>
      rw [hrec] at h
      exact ⟨b, bs, rfl, rfl, (Option.some.inj h).symm⟩

theorem optMapM_append_some {α β : Type} {f : α → Option β}
    {l1 l2 : List α} {r : List β} (h : optMapM f (l1 ++ l2) = some r) :
    ∃ r1 r2, optMapM f l1 = some r1 ∧ optMapM f l2 = some r2 ∧
      r = r1 ++ r2 := by
  induction l1 generalizing r with
  | nil => exact ⟨[], r, rfl, h, rfl⟩
  | cons a l1 ih =>
    rw [List.cons_append] at h
    obtain ⟨b, bs, hfa, hrec, hr⟩ := optMapM_cons_some h
    obtain ⟨r1, r2, h1, h2, h3⟩ := ih hrec
    refine ⟨b :: r1, r2, ?_, h2, by rw [hr, h3]; rfl⟩
    rw [optMapM, hfa, h1]

theorem optMapM_all_nil {α : Type} (f : α → Option (List StmtGroup))
    (ks : List α) (h : ∀ k ∈ ks, f k = some []) :
    ∃ ls, optMapM f ks = some ls ∧ ls.flatten = ([] : List StmtGroup) := by
  induction ks with
  | nil => exact ⟨[], rfl, rfl⟩
  | cons k ks ih =>
    obtain ⟨ls, h1, h2⟩ := ih (fun k hk => h k (List.mem_cons_of_mem _ hk))
    refine ⟨[] :: ls, ?_, by simp [h2]⟩
    rw [optMapM, h k (List.mem_cons_self _ _), h1]

/-- Claim C5: when the current and new aclitem lists induce identical
`(grantee, grantor) -> codes` mappings, `diff_privs` returns an empty
statement list (keys present in both with equal code-strings contribute
nothing). -/
theorem diff_privs_identical_empty (co no : DbObject) (cl nl : List Str)
    (cp np : PrivDict) (hcp : buildPrivDict cl = some cp)
    (hnp : buildPrivDict nl = some np)
    (hsame : ∀ k, dget cp k = dget np k) :
    diff_privs co cl no nl = some [] := by
  rw [diff_privs_phases hcp hnp]
  have h1 : (cp.map Prod.fst).filter (fun k => !dmem np k) = [] := by
    rw [List.filter_eq_nil_iff]
    intro k hk
    have hsome : (dget cp k).isSome := by
      obtain ⟨e, he, hke⟩ := mem_keys_iff.mp hk
      exact hke ▸ dget_isSome_of_mem he
    have hmem : dmem np k = true :=
      dmem_of_dget_isSome (hsame k ▸ hsome)
    simp [hmem]
  have h2 : ∀ k ∈ np.map Prod.fst, phase2Entry co no cp np k = some [] := by
    intro k hk
    have hsome : (dget np k).isSome := by
      obtain ⟨e, he, hke⟩ := mem_keys_iff.mp hk
      exact hke ▸ dget_isSome_of_mem he
    have hcm : dmem cp k = true :=
      dmem_of_dget_isSome ((hsame k).symm ▸ hsome)
    unfold phase2Entry
    rw [if_pos hcm, if_neg (fun hne => hne (hsame k))]
  obtain ⟨ls, hls, hfl⟩ := optMapM_all_nil _ _ h2
  rw [h1, hls]
  show some ([] ++ ls.flatten) = some []
  rw [hfl]
  rfl

/-- Witness for C5 on equal input lists. -/
theorem diff_privs_identical_empty_witness :
    diff_privs tableObj ["alice=r/bob".toList] tableObj
      ["alice=r/bob".toList] = some [] :=
  diff_privs_identical_empty tableObj tableObj _ _
    [(("alice".toList, "bob".toList), "r".toList)]
    [(("alice".toList, "bob".toList), "r".toList)]
    (by decide) (by decide) (fun _ => rfl)

theorem mem_of_dget {d : PrivDict} {k : PrivKey} {v : Str}
    (h : dget d k = some v) : (k, v) ∈ d := by
  unfold dget at h
  cases hf : d.find? (fun p => p.1 = k) with
  | none => rw [hf] at h; simp at h
  | some e =>
    rw [hf, Option.map_some'] at h
    have h1 := List.mem_of_find?_eq_some hf
    have h2' := List.find?_some hf
    have h2 : e.1 = k := of_decide_eq_true h2'
    obtain ⟨ek, ev⟩ := e
    obtain rfl : ek = k := h2
    obtain rfl : ev = v := Option.some.inj h
    exact h1

/-- Claim C1: a `(grantee, grantor)` key present in both dictionaries with
differing code-strings makes `diff_privs` emit the revoke group built from
the full current code-string immediately followed by the grant group built
from the full new code-string. -/
theorem diff_privs_changed_key (co no : DbObject) (cl nl : List Str)
    (cp np : PrivDict) (u g vc vn : Str) (stmts : List StmtGroup)
    (hcp : buildPrivDict cl = some cp) (hnp : buildPrivDict nl = some np)
    (hvc : dget cp (u, g) = some vc) (hvn : dget np (u, g) = some vn)
    (hne : vc ≠ vn) (hd : diff_privs co cl no nl = some stmts) :
    ∃ pre post rv gr,
      rejoin cp u g =
        (if u = ("PUBLIC".toList) then [] else u) ++ '=' :: vc ++ '/' :: g ∧
      rejoin np u g =
        (if u = ("PUBLIC".toList) then [] else u) ++ '=' :: vn ++ '/' :: g ∧
      add_revoke co (rejoin cp u g) = some rv ∧
      add_grant no (rejoin np u g) = some gr ∧
      stmts = pre ++ rv :: gr :: post := by
  have hwc : WFTriple u vc g :=
    buildPrivDictAux_wf hcp (fun e he => absurd he (List.not_mem_nil e))
      ((u, g), vc) (mem_of_dget hvc)
  have hwn : WFTriple u vn g :=
    buildPrivDictAux_wf hnp (fun e he => absurd he (List.not_mem_nil e))
      ((u, g), vn) (mem_of_dget hvn)
  have hrc : rejoin cp u g =
      (if u = ("PUBLIC".toList) then [] else u) ++ '=' :: vc ++ '/' :: g := by
    unfold rejoin
    rw [hvc]
    rfl
  have hrn : rejoin np u g =
      (if u = ("PUBLIC".toList) then [] else u) ++ '=' :: vn ++ '/' :: g := by
    unfold rejoin
    rw [hvn]
    rfl
  have hsc : splitPrivs (rejoin cp u g) = some (u, vc, g) := by
    rw [hrc]; exact splitPrivs_rejoin_of_wf hwc
  have hsn : splitPrivs (rejoin np u g) = some (u, vn, g) := by
    rw [hrn]; exact splitPrivs_rejoin_of_wf hwn
  have har : add_revoke co (rejoin cp u g) =
      some (revokeStmtsOf co u vc) := add_revoke_eq hsc
  have hag : add_grant no (rejoin np u g) =
      some (grantStmtsOf no u vn) := add_grant_eq hsn
  rw [diff_privs_phases hcp hnp] at hd
  cases ho1 : optMapM (fun k => add_revoke co (rejoin cp k.1 k.2))
      ((cp.map Prod.fst).filter (fun k => !dmem np k)) with
  | none =>
    rw [ho1] at hd
    cases ho2 : optMapM (phase2Entry co no cp np) (np.map Prod.fst) with
    | none => rw [ho2] at hd; exact absurd hd (by simp)
    | some ls2 => rw [ho2] at hd; exact absurd hd (by simp)
  | some s1 =>
    rw [ho1] at hd
    cases ho2 : optMapM (phase2Entry co no cp np) (np.map Prod.fst) with
    | none => rw [ho2] at hd; exact absurd hd (by simp)
    | some ls2 =>
      rw [ho2] at hd
      have hstmts : stmts = s1 ++ ls2.flatten := (Option.some.inj hd).symm
      have hkmem : (u, g) ∈ np.map Prod.fst :=
        dmem_iff_mem_keys.mp (dmem_of_dget_isSome (by rw [hvn]; rfl))
      obtain ⟨K1, K2, hK⟩ := List.append_of_mem hkmem
      rw [hK] at ho2
      obtain ⟨L1, L2', h1, h2, h3⟩ := optMapM_append_some ho2
      obtain ⟨lk, L2, hfk, hL2, hL2'⟩ := optMapM_cons_some h2
      have hpe : phase2Entry co no cp np (u, g) =
          some [revokeStmtsOf co u vc, grantStmtsOf no u vn] := by
        unfold phase2Entry
        rw [if_pos (dmem_of_dget_isSome (by rw [hvc]; rfl))]
        rw [if_pos (show dget cp (u, g) ≠ dget np (u, g) by
          rw [hvc, hvn]
          exact fun hcontra => hne (Option.some.inj hcontra))]
        dsimp only
        rw [har, hag]
      have hlk : lk = [revokeStmtsOf co u vc, grantStmtsOf no u vn] :=
        Option.some.inj (hfk.symm.trans hpe)
      refine ⟨s1 ++ L1.flatten, L2.flatten, revokeStmtsOf co u vc,
        grantStmtsOf no u vn, hrc, hrn, har, hag, ?_⟩
      rw [hstmts, h3, hL2', hlk]
      simp

/-- Witness for C1 on the spec's changed-grant example. -/
theorem diff_privs_changed_key_witness :
    ∃ pre post rv gr,
      rejoin [(("alice".toList, "bob".toList), "r".toList)]
          ("alice".toList) ("bob".toList) =
        (if ("alice".toList : Str) = ("PUBLIC".toList) then []
         else ("alice".toList)) ++ '=' :: ("r".toList) ++ '/' ::
          ("bob".toList) ∧
      rejoin [(("alice".toList, "bob".toList), "rw".toList)]
          ("alice".toList) ("bob".toList) =
        (if ("alice".toList : Str) = ("PUBLIC".toList) then []
         else ("alice".toList)) ++ '=' :: ("rw".toList) ++ '/' ::
          ("bob".toList) ∧
      add_revoke tableObj
        (rejoin [(("alice".toList, "bob".toList), "r".toList)]
          ("alice".toList) ("bob".toList)) = some rv ∧
      add_grant tableObj
        (rejoin [(("alice".toList, "bob".toList), "rw".toList)]
          ("alice".toList) ("bob".toList)) = some gr ∧
      [[("REVOKE SELECT ON TABLE t1 FROM alice".toList)],
       [("GRANT SELECT, UPDATE ON TABLE t1 TO alice".toList)]] =
        pre ++ rv :: gr :: post :=
  diff_privs_changed_key tableObj tableObj ["alice=r/bob".toList]
    ["alice=rw/bob".toList]
    [(("alice".toList, "bob".toList), "r".toList)]
    [(("alice".toList, "bob".toList), "rw".toList)]
    ("alice".toList) ("bob".toList) ("r".toList) ("rw".toList)
    [[("REVOKE SELECT ON TABLE t1 FROM alice".toList)],
     [("GRANT SELECT, UPDATE ON TABLE t1 TO alice".toList)]]
    (by decide) (by decide) (by decide) (by decide) (by decide) (by decide)

/-- Claim C10: `diff_privs` emits all phase-one revoke groups (keys only
in the current dictionary, in dictionary order) before all phase-two
groups (keys of the new dictionary, in dictionary order), and each
dictionary lists its keys in order of first occurrence of the parsed
keys of the corresponding input list. -/
theorem diff_privs_phase_order (co no : DbObject) (cl nl : List Str)
    (cp np : PrivDict) (cts nts : List (Str × Str × Str))
    (stmts : List StmtGroup)
    (hct : optMapM splitPrivs cl = some cts)
    (hnt : optMapM splitPrivs nl = some nts)
    (hcp : buildPrivDict cl = some cp) (hnp : buildPrivDict nl = some np)
    (hd : diff_privs co cl no nl = some stmts) :
    cp.map Prod.fst = firstOccAux [] (cts.map parsedKey) ∧
    np.map Prod.fst = firstOccAux [] (nts.map parsedKey) ∧
    ∃ s1 ls2,
      optMapM (fun k => add_revoke co (rejoin cp k.1 k.2))
        ((cp.map Prod.fst).filter (fun k => !dmem np k)) = some s1 ∧
      optMapM (phase2Entry co no cp np) (np.map Prod.fst) = some ls2 ∧
      stmts = s1 ++ ls2.flatten := by
  refine ⟨?_, ?_, ?_⟩
  · have h := buildPrivDictAux_keys (d := []) hcp hct
    simpa [firstOccAux] using h
  · have h := buildPrivDictAux_keys (d := []) hnp hnt
    simpa [firstOccAux] using h
  · rw [diff_privs_phases hcp hnp] at hd
    cases ho1 : optMapM (fun k => add_revoke co (rejoin cp k.1 k.2))
        ((cp.map Prod.fst).filter (fun k => !dmem np k)) with
    | none =>
      rw [ho1] at hd
      cases ho2 : optMapM (phase2Entry co no cp np) (np.map Prod.fst) with
      | none => rw [ho2] at hd; exact absurd hd (by simp)
      | some ls2 => rw [ho2] at hd; exact absurd hd (by simp)
    | some s1 =>
      rw [ho1] at hd
      cases ho2 : optMapM (phase2Entry co no cp np) (np.map Prod.fst) with
      | none => rw [ho2] at hd; exact absurd hd (by simp)
      | some ls2 =>
        rw [ho2] at hd
        exact ⟨s1, ls2, rfl, rfl, (Option.some.inj hd).symm⟩

/-- Witness for C10 on a removed key plus an added key. -/
theorem diff_privs_phase_order_witness :
    ([(("alice".toList, "bob".toList), "r".toList),
      (("carol".toList, "bob".toList), "w".toList)] : PrivDict).map Prod.fst =
      firstOccAux []
        ([("alice".toList, "r".toList, "bob".toList),
          ("carol".toList, "w".toList, "bob".toList)].map parsedKey) ∧
    ([(("carol".toList, "bob".toList), "w".toList),
      (("dave".toList, "bob".toList), "a".toList)] : PrivDict).map Prod.fst =
      firstOccAux []
        ([("carol".toList, "w".toList, "bob".toList),
          ("dave".toList, "a".toList, "bob".toList)].map parsedKey) ∧
    ∃ s1 ls2,
      optMapM (fun k => add_revoke tableObj
          (rejoin [(("alice".toList, "bob".toList), "r".toList),
            (("carol".toList, "bob".toList), "w".toList)] k.1 k.2))
        ((([(("alice".toList, "bob".toList), "r".toList),
            (("carol".toList, "bob".toList), "w".toList)] : PrivDict).map
              Prod.fst).filter
          (fun k => !dmem [(("carol".toList, "bob".toList), "w".toList),
            (("dave".toList, "bob".toList), "a".toList)] k)) = some s1 ∧
      optMapM (phase2Entry tableObj tableObj
          [(("alice".toList, "bob".toList), "r".toList),
           (("carol".toList, "bob".toList), "w".toList)]
          [(("carol".toList, "bob".toList), "w".toList),
           (("dave".toList, "bob".toList), "a".toList)])
        (([(("carol".toList, "bob".toList), "w".toList),
           (("dave".toList, "bob".toList), "a".toList)] : PrivDict).map
             Prod.fst) = some ls2 ∧
      [[("REVOKE SELECT ON TABLE t1 FROM alice".toList)],
       [("GRANT INSERT ON TABLE t1 TO dave".toList)]] = s1 ++ ls2.flatten :=
  diff_privs_phase_order tableObj tableObj
    ["alice=r/bob".toList, "carol=w/bob".toList]
    ["carol=w/bob".toList, "dave=a/bob".toList]
    [(("alice".toList, "bob".toList), "r".toList),
     (("carol".toList, "bob".toList), "w".toList)]
    [(("carol".toList, "bob".toList), "w".toList),
     (("dave".toList, "bob".toList), "a".toList)]
    [("alice".toList, "r".toList, "bob".toList),
     ("carol".toList, "w".toList, "bob".toList)]
    [("carol".toList, "w".toList, "bob".toList),
     ("dave".toList, "a".toList, "bob".toList)]
    [[("REVOKE SELECT ON TABLE t1 FROM alice".toList)],
     [("GRANT INSERT ON TABLE t1 TO dave".toList)]]
    (by decide) (by decide) (by decide) (by decide) (by decide)

/-- Claim C2 counterexample: with an empty (falsy) owner the explicit
grantor wrapper is skipped, so the round trip loses the grantor `bob`
and the reconstructed aclitem is not equivalent to the original. -/
theorem privileges_roundtrip_empty_owner_cex :
    privileges_to_map ("alice=r/bob".toList) ("arwdDxt".toList) [] =
      some ⟨"alice".toList,
        PrivValue.plain [PrivEntry.bare ("select".toList)]⟩ ∧
    privileges_from_map
        [⟨"alice".toList,
          PrivValue.plain [PrivEntry.bare ("select".toList)]⟩]
        ("arwdDxt".toList) [] = some ["alice=r/".toList] ∧
    aclEquiv ("alice=r/bob".toList) ("alice=r/".toList) = false := by
  refine ⟨by decide, by decide, by decide⟩

/-- Claim C2 (amended): for every well-formed aclitem (grantee and grantor
free of separators, code-string encoded from distinct valid codes with
optional markers), every `allprivs`, and every NON-EMPTY owner, with the
code-string not a one-privilege all-set, mapping to structured form and
back yields an equivalent aclitem: same grantee under the PUBLIC mapping,
same code/marker set (canonical order) and same grantor under the
grantor-defaults-to-owner rule. -/
theorem privileges_roundtrip (usr grantor owner allprivs : Str)
    (l : List (Char × Bool))
    (hv : ∀ p ∈ l, p.1 ∈ sortedPrivCodes)
    (hnd : (l.map Prod.fst).Nodup)
    (hu : '=' ∉ usr) (hg1 : '=' ∉ grantor) (hg2 : '/' ∉ grantor)
    (ho : owner ≠ [])
    (hx : ¬(encodeCodes l = allprivs ∧ allprivs.length = 1)) :
    ∃ m s',
      privileges_to_map (usr ++ '=' :: encodeCodes l ++ '/' :: grantor)
        allprivs owner = some m ∧
      privileges_from_map [m] allprivs owner = some [s'] ∧
      aclEquiv (usr ++ '=' :: encodeCodes l ++ '/' :: grantor) s' = true := by
  have hc1 : '=' ∉ encodeCodes l := not_mem_encode hv (by decide) (by decide)
  have hc2 : '/' ∉ encodeCodes l := not_mem_encode hv (by decide) (by decide)
  have hparse : splitPrivs (usr ++ '=' :: encodeCodes l ++ '/' :: grantor) =
      some (if usr = [] then ("PUBLIC".toList) else usr,
        encodeCodes l, grantor) :=
    splitPrivs_mk hu hc1 hc2 hg1 hg2
  generalize hU : (if usr = [] then ("PUBLIC".toList) else usr) = u at hparse
  obtain ⟨hwu, -, -, -, -, hune⟩ := splitPrivs_wf hparse
  have hE1 : '=' ∉ encodeCodes (codeSet (encodeCodes l)) :=
    not_mem_encode codeSet_valid (by decide) (by decide)
  have hE2 : '/' ∉ encodeCodes (codeSet (encodeCodes l)) :=
    not_mem_encode codeSet_valid (by decide) (by decide)
  unfold privileges_to_map
  rw [hparse]
  dsimp only
  by_cases hall : encodeCodes l = allprivs ∧ allprivs.length > 1
  · rw [if_pos hall]
    have hparse' : splitPrivs ((if u = ("PUBLIC".toList) then [] else u) ++
        '=' :: allprivs ++ '/' :: grantor) = some (u, allprivs, grantor) :=
      splitPrivs_rejoin_of_wf
        ⟨hwu, hall.1 ▸ hc1, hall.1 ▸ hc2, hg1, hg2, hune⟩
    have hequiv : aclEquiv (usr ++ '=' :: encodeCodes l ++ '/' :: grantor)
        ((if u = ("PUBLIC".toList) then [] else u) ++
          '=' :: allprivs ++ '/' :: grantor) = true := by
      unfold aclEquiv
      rw [hparse, hparse']
      dsimp only
      rw [hall.1]
      simp
    by_cases hw : owner ≠ [] ∧ grantor ≠ owner
    · rw [if_pos hw]
      refine ⟨⟨u, PrivValue.withGrantor [PrivEntry.bare ("all".toList)]
        grantor⟩,
        (if u = ("PUBLIC".toList) then [] else u) ++
          '=' :: allprivs ++ '/' :: grantor, rfl, ?_, hequiv⟩
      refine from_map_singleton ?_
      rw [fromMapItem_wrap, if_pos rfl]
    · rw [if_neg hw]
      have hgo : grantor = owner := by
        rcases not_and_or.mp hw with h | h
        · exact absurd ho h
        · exact not_not.mp h
      refine ⟨⟨u, PrivValue.plain [PrivEntry.bare ("all".toList)]⟩,
        (if u = ("PUBLIC".toList) then [] else u) ++
          '=' :: allprivs ++ '/' :: grantor, rfl, ?_, hequiv⟩
      refine from_map_singleton ?_
      rw [fromMapItem_plain _ _ _ _ (by decide), if_pos rfl, ← hgo]
  · rw [if_neg hall]
    have hpc : privsCodesAux []
        (sortedPrivCodes.filterMap (fun code =>
          if code ∈ encodeCodes l then
            some (if [code, '*'] <:+: encodeCodes l then
                    PrivEntry.attr (privCodeName code) true
                  else PrivEntry.bare (privCodeName code))
          else none)) = encodeCodes (codeSet (encodeCodes l)) :=
      privsCodes_filterMap (encodeCodes l) sortedPrivCodes (fun _ hxm => hxm)
    have hparse' : splitPrivs ((if u = ("PUBLIC".toList) then [] else u) ++
        '=' :: encodeCodes (codeSet (encodeCodes l)) ++ '/' :: grantor) =
        some (u, encodeCodes (codeSet (encodeCodes l)), grantor) :=
      splitPrivs_rejoin_of_wf ⟨hwu, hE1, hE2, hg1, hg2, hune⟩
    have hequiv : aclEquiv (usr ++ '=' :: encodeCodes l ++ '/' :: grantor)
        ((if u = ("PUBLIC".toList) then [] else u) ++
          '=' :: encodeCodes (codeSet (encodeCodes l)) ++ '/' :: grantor) =
        true := by
      unfold aclEquiv
      rw [hparse, hparse']
      dsimp only
      rw [codeSet_encode_codeSet]
      simp
    by_cases hw : owner ≠ [] ∧ grantor ≠ owner
    · rw [if_pos hw]
      refine ⟨⟨u, PrivValue.withGrantor _ grantor⟩,
        (if u = ("PUBLIC".toList) then [] else u) ++
          '=' :: encodeCodes (codeSet (encodeCodes l)) ++ '/' :: grantor,
        rfl, ?_, hequiv⟩
      refine from_map_singleton ?_
      rw [fromMapItem_wrap, if_neg (toMapPrivs_ne_all (encodeCodes l)), hpc]
    · rw [if_neg hw]
      have hgo : grantor = owner := by
        rcases not_and_or.mp hw with h | h
        · exact absurd ho h
        · exact not_not.mp h
      refine ⟨⟨u, PrivValue.plain _⟩,
        (if u = ("PUBLIC".toList) then [] else u) ++
          '=' :: encodeCodes (codeSet (encodeCodes l)) ++ '/' :: grantor,
        rfl, ?_, hequiv⟩
      refine from_map_singleton ?_
      rw [fromMapItem_plain _ _ _ _ (toMapPrivs_not_grantor (encodeCodes l)),
        if_neg (toMapPrivs_ne_all (encodeCodes l)), hpc, ← hgo]

/-- Witness for the amended C2 on `alice=a*r/bob` with owner `carol`. -/
theorem privileges_roundtrip_witness :
    ∃ m s',
      privileges_to_map (("alice".toList) ++ '=' ::
          encodeCodes [('a', true), ('r', false)] ++ '/' :: ("bob".toList))
        ("arwdDxt".toList) ("carol".toList) = some m ∧
      privileges_from_map [m] ("arwdDxt".toList) ("carol".toList) =
        some [s'] ∧
      aclEquiv (("alice".toList) ++ '=' ::
          encodeCodes [('a', true), ('r', false)] ++ '/' :: ("bob".toList))
        s' = true :=
  privileges_roundtrip ("alice".toList) ("bob".toList) ("carol".toList)
    ("arwdDxt".toList) [('a', true), ('r', false)]
    (by decide) (by decide) (by decide) (by decide) (by decide) (by decide)
    (by decide)
